import Mathlib

/-!
Shallow embedding of the separate-chaining hash table of `src/hash_map.h`
(class `HashMap<KeyType, ValueType, Hash>`).

The C++ object state is four fields: the bucket vector `hash_map_`
(a `std::vector<std::vector<std::pair<KeyType, ValueType>>>`, initialised
to `{{}, {end_}}`), the hasher, the size counter `sz_` and `capacity_`.
We model the bucket vector as a `List (List (K × V))`, `size_t` values as
`Nat`, and the default-constructed member `end_` as a stored pair.
Iterators are (bucket index, offset) pairs; the constructor's
`next_not_empty` loop is the function `skipEnds`.
-/

namespace HashTable

variable {K V : Type}

/-- State of `HashMap<KeyType, ValueType, Hash>`: bucket vector `hash_map_`,
hasher `hasher_`, size `sz_`, capacity `capacity_`, and the default-constructed
member `end_` used as the sentinel element. -/
structure HashMap (K V : Type) where
  hash_map_ : List (List (K × V))
  hasher : K → Nat
  sz : Nat
  capacity : Nat
  end_ : K × V

/-- `INCREASING_SIZE_COEFFICIENT` from the source. -/
def INCREASING_SIZE_COEFFICIENT : Nat := 1
/-- `CHANGING_SIZE_COEFFICIENT` from the source. -/
def CHANGING_SIZE_COEFFICIENT : Nat := 2
/-- `DECREASING_SIZE_COEFFICIENT` from the source. -/
def DECREASING_SIZE_COEFFICIENT : Nat := 4

/-- The default constructor: `hash_map_ = {{}, {end_}}`, `sz_ = 0`,
`capacity_ = 1`, where `end_` is the default-constructed element. -/
def mkHashMap (hasher : K → Nat) (d : K × V) : HashMap K V :=
  ⟨[[], [d]], hasher, 0, 1, d⟩

/-- `hash_key`: `hasher_(key) % capacity_`. -/
def HashMap.hash_key (m : HashMap K V) (k : K) : Nat :=
  m.hasher k % m.capacity

/-- The `next_not_empty` loop of the iterator classes: starting at bucket
index `i` with in-bucket offset `j`, while the offset sits at the end of the
current bucket, move to the next bucket and reset the offset to 0.  The first
argument is the suffix of the bucket vector starting at bucket `i`. -/
def skipEnds : List (List (K × V)) → Nat → Nat → Nat × Nat
  | [], i, j => (i, j)
  | b :: rest, i, j => if j = b.length then skipEnds rest (i + 1) 0 else (i, j)

/-- The iterator constructor `iterator(i, j)` normalised by `next_not_empty`,
as a position over the whole bucket vector `bs`. -/
def posAfter (bs : List (List (K × V))) (i j : Nat) : Nat × Nat :=
  skipEnds (bs.drop i) i j

/-- `end()`: `iterator(--hash_map_.end(), (--hash_map_.end())->begin())`,
i.e. the position at offset 0 of the last bucket (the sentinel bucket),
normalised by the constructor's `next_not_empty`. -/
def endPos (bs : List (List (K × V))) : Nat × Nat :=
  posAfter bs (bs.length - 1) 0

/-- `end()` of a table. -/
def HashMap.endIter (m : HashMap K V) : Nat × Nat :=
  endPos m.hash_map_

/-- `begin()`: `std::find_if` for the first non-empty bucket, then the
iterator constructor (which runs `next_not_empty`). -/
def HashMap.beginIter (m : HashMap K V) : Nat × Nat :=
  posAfter m.hash_map_ (m.hash_map_.findIdx fun b => !b.isEmpty) 0

/-- Dereference `*it` at position `p` of bucket vector `bs` (the default `d`
is never consulted on the in-range positions the table produces). -/
def derefAt (bs : List (List (K × V))) (d : K × V) (p : Nat × Nat) : K × V :=
  (bs.getD p.1 []).getD p.2 d

/-- `operator++` of the iterator: `++j_` then `next_not_empty()`. -/
def advancePos (bs : List (List (K × V))) (p : Nat × Nat) : Nat × Nat :=
  posAfter bs p.1 (p.2 + 1)

/-- `operator++` applied `n` times. -/
def advanceN (bs : List (List (K × V))) : Nat → Nat × Nat → Nat × Nat
  | 0, p => p
  | n + 1, p => advanceN bs n (advancePos bs p)

/-- The entries visited when repeatedly dereferencing and incrementing an
iterator from position `p`, stopping at `end()`; `fuel` bounds the number of
steps taken. -/
def visitAux (bs : List (List (K × V))) (d : K × V) : Nat → Nat × Nat → List (K × V)
  | 0, _ => []
  | fuel + 1, p =>
    if p = endPos bs then []
    else derefAt bs d p :: visitAux bs d fuel (advancePos bs p)

variable [DecidableEq K]

/-- The `std::find_if` scan of `find`/`erase` over the target bucket: the
offset of the first entry whose key equals `key`, or the bucket length (the
bucket's end iterator) when there is none. -/
def HashMap.bucketFindIdx (m : HashMap K V) (k : K) : Nat :=
  (m.hash_map_.getD (m.hash_key k) []).findIdx fun e => decide (e.1 = k)

/-- `find(key)`: scan the target bucket; if the scan hit the bucket's end,
return `end()`, otherwise the iterator at the matching element. -/
def HashMap.find (m : HashMap K V) (k : K) : Nat × Nat :=
  if m.bucketFindIdx k = (m.hash_map_.getD (m.hash_key k) []).length then m.endIter
  else posAfter m.hash_map_ (m.hash_key k) (m.bucketFindIdx k)

/-- The body of the rehash loop:
`new_hash_map[hasher_(element.first) % new_capacity].push_back(element)`. -/
def placeEntry (hasher : K → Nat) (ncap : Nat) (acc : List (List (K × V)))
    (e : K × V) : List (List (K × V)) :=
  acc.set (hasher e.1 % ncap) (acc.getD (hasher e.1 % ncap) [] ++ [e])

/-- The fresh bucket vector built by the rehash loop: start from
`new_capacity` empty buckets and push every entry of the real buckets (in
bucket order) into `hasher_(key) % new_capacity`. -/
def newBuckets (m : HashMap K V) : List (List (K × V)) :=
  ((m.hash_map_.take m.capacity).flatten).foldl
    (placeEntry m.hasher (m.sz * CHANGING_SIZE_COEFFICIENT))
    (List.replicate (m.sz * CHANGING_SIZE_COEFFICIENT) [])

/-- `rehash_if_necessary()`: if neither `sz_ * 1 == capacity_` nor
`sz_ * 4 == capacity_`, do nothing; otherwise rebuild the bucket vector with
`sz_ * 2` real buckets, append the sentinel bucket `{end_}`, and install the
new vector and capacity. -/
def HashMap.rehash_if_necessary (m : HashMap K V) : HashMap K V :=
  if m.sz * INCREASING_SIZE_COEFFICIENT ≠ m.capacity ∧
      m.sz * DECREASING_SIZE_COEFFICIENT ≠ m.capacity then m
  else
    { m with
      hash_map_ := newBuckets m ++ [[m.end_]],
      capacity := m.sz * CHANGING_SIZE_COEFFICIENT }

/-- `insert(element)`: if `find(element.first) != end()` do nothing;
otherwise push the element onto its bucket, increment `sz_`, and run
`rehash_if_necessary`. -/
def HashMap.insert (m : HashMap K V) (e : K × V) : HashMap K V :=
  if m.find e.1 ≠ m.endIter then m
  else
    HashMap.rehash_if_necessary
      { m with
        hash_map_ :=
          m.hash_map_.set (m.hash_key e.1)
            (m.hash_map_.getD (m.hash_key e.1) [] ++ [e]),
        sz := m.sz + 1 }

/-- `erase(key)`: scan the target bucket for the key; if absent do nothing;
otherwise erase that element from the bucket, decrement `sz_`, and run
`rehash_if_necessary`. -/
def HashMap.erase (m : HashMap K V) (k : K) : HashMap K V :=
  if m.bucketFindIdx k = (m.hash_map_.getD (m.hash_key k) []).length then m
  else
    HashMap.rehash_if_necessary
      { m with
        hash_map_ :=
          m.hash_map_.set (m.hash_key k)
            ((m.hash_map_.getD (m.hash_key k) []).eraseIdx (m.bucketFindIdx k)),
        sz := m.sz - 1 }

/-- `at(key)`: `find` then compare with `end()`; throw
`std::out_of_range` when absent, otherwise return `it->second`. -/
def HashMap.at' (m : HashMap K V) (k : K) : Except String V :=
  if m.find k = m.endIter then
    Except.error "HashMap<KeyType, ValueType, Hash>::at() : key is not exist"
  else Except.ok (derefAt m.hash_map_ m.end_ (m.find k)).2

/-- `operator[](key)`: `insert({key, ValueType()})` (where `ValueType()` is
the second component of the default-constructed `end_`), then return
`find(key)->second` of the updated table, paired with the updated table. -/
def HashMap.opIndex (m : HashMap K V) (k : K) : HashMap K V × V :=
  let m2 := m.insert (k, m.end_.2)
  (m2, (derefAt m2.hash_map_ m2.end_ (m2.find k)).2)

/-- `clear()`: `hash_map_ = {{}, {end_}}; sz_ = 0; capacity_ = 1;`. -/
def HashMap.clear (m : HashMap K V) : HashMap K V :=
  { m with hash_map_ := [[], [m.end_]], sz := 0, capacity := 1 }

/-- `size()`. -/
def HashMap.size (m : HashMap K V) : Nat := m.sz

/-- `empty()`: `sz_ == 0`. -/
def HashMap.isTableEmpty (m : HashMap K V) : Bool := m.sz == 0

/-- The entries stored in the real (non-sentinel) buckets, in bucket order:
the contents the C++ rehash loop iterates over. -/
def HashMap.entriesOf (m : HashMap K V) : List (K × V) :=
  (m.hash_map_.take m.capacity).flatten

/-- The keys currently stored in the table. -/
def HashMap.keysOf (m : HashMap K V) : List K :=
  m.entriesOf.map Prod.fst

/-- Table states reachable from a freshly constructed table by the public
mutating operations. -/
inductive Reachable : HashMap K V → Prop
  | init (hasher : K → Nat) (d : K × V) : Reachable (mkHashMap hasher d)
  | insert {m : HashMap K V} (e : K × V) : Reachable m → Reachable (m.insert e)
  | erase {m : HashMap K V} (k : K) : Reachable m → Reachable (m.erase k)
  | opIndex {m : HashMap K V} (k : K) : Reachable m → Reachable (m.opIndex k).1
  | clear {m : HashMap K V} : Reachable m → Reachable m.clear

/-! ### Generic list helper lemmas -/

section ListHelpers

variable {α : Type}

lemma getD_app_left (l₁ l₂ : List α) (d : α) {i : Nat} (h : i < l₁.length) :
    (l₁ ++ l₂).getD i d = l₁.getD i d := by
  simp [List.getD_eq_getElem?_getD, List.getElem?_append, h]

lemma getD_app_last (l : List α) (x d : α) : (l ++ [x]).getD l.length d = x := by
  simp [List.getD_eq_getElem?_getD, List.getElem?_append_right (le_refl l.length)]

lemma getD_set_self (l : List α) {i : Nat} (h : i < l.length) (v d : α) :
    (l.set i v).getD i d = v := by
  simp [List.getD_eq_getElem?_getD, List.getElem?_set_self h]

lemma getD_set_ne (l : List α) {i j : Nat} (hij : i ≠ j) (v d : α) :
    (l.set i v).getD j d = l.getD j d := by
  simp [List.getD_eq_getElem?_getD, List.getElem?_set_ne hij]

lemma getD_replicate_nil {β : Type} (n i : Nat) :
    (List.replicate n ([] : List β)).getD i [] = [] := by
  simp only [List.getD_eq_getElem?_getD, List.getElem?_replicate]
  by_cases h : i < n <;> simp [h]

lemma getD_eq_getElem (l : List α) {i : Nat} (h : i < l.length) (d : α) :
    l.getD i d = l.get ⟨i, h⟩ := by
  simp [List.getD_eq_getElem?_getD, List.getElem?_eq_getElem h]

lemma getD_oob (l : List α) {i : Nat} (h : l.length ≤ i) (d : α) :
    l.getD i d = d := by
  simp [List.getD_eq_getElem?_getD, List.getElem?_eq_none h]

lemma flatten_set_append_perm (l : List (List α)) :
    ∀ {i : Nat}, i < l.length → ∀ a : α,
      ((l.set i (l.getD i [] ++ [a])).flatten).Perm (l.flatten ++ [a]) := by
  induction l with
  | nil => intro i h; simp at h
  | cons b t ih =>
    intro i h a
    cases i with
    | zero =>
      simp only [List.getD_cons_zero, List.set_cons_zero, List.flatten_cons,
        List.append_assoc]
      exact List.Perm.append_left b List.perm_append_comm
    | succ n =>
      simp only [List.set_cons_succ, List.getD_cons_succ, List.flatten_cons,
        List.append_assoc]
      exact List.Perm.append_left b (ih (Nat.lt_of_succ_lt_succ h) a)

lemma flatten_set_eraseIdx_perm (l : List (List α)) :
    ∀ {i : Nat}, i < l.length → ∀ {j : Nat} (hj : j < (l.getD i []).length),
      ((l.set i ((l.getD i []).eraseIdx j)).flatten
        ++ [(l.getD i []).get ⟨j, hj⟩]).Perm l.flatten := by
  induction l with
  | nil => intro i h; simp at h
  | cons b t ih =>
    intro i h j hj
    cases i with
    | zero =>
      simp only [List.getD_cons_zero, List.set_cons_zero, List.flatten_cons,
        List.append_assoc] at hj ⊢
      have hb : (b.eraseIdx j ++ [b.get ⟨j, hj⟩]).Perm b := by
        conv_rhs => rw [← List.take_append_drop j b,
          List.drop_eq_getElem_cons hj]
        rw [List.eraseIdx_eq_take_drop_succ, List.append_assoc]
        refine List.Perm.append_left _ ?_
        exact List.perm_append_singleton _ _
      refine List.Perm.trans (List.Perm.append_left _ List.perm_append_comm) ?_
      rw [← List.append_assoc]
      exact List.Perm.append_right _ hb
    | succ n =>
      simp only [List.getD_cons_succ, List.set_cons_succ, List.flatten_cons,
        List.append_assoc] at hj ⊢
      exact List.Perm.append_left b (ih (Nat.lt_of_succ_lt_succ h) hj)

lemma flatten_drop_succ (l : List (List α)) (n : Nat) :
    (l.drop n).flatten = l.getD n [] ++ (l.drop (n + 1)).flatten := by
  by_cases h : n < l.length
  · rw [List.drop_eq_getElem_cons h, List.flatten_cons, getD_eq_getElem l h]
    rfl
  · push_neg at h
    rw [List.drop_eq_nil_of_le h, List.drop_eq_nil_of_le (Nat.le_succ_of_le h),
      getD_oob l h]
    rfl

lemma mem_flatten_take {l : List (List α)} {n : Nat} {a : α} :
    a ∈ (l.take n).flatten ↔ ∃ i, i < n ∧ i < l.length ∧ a ∈ l.getD i [] := by
  induction l generalizing n with
  | nil => simp
  | cons b t ih =>
    cases n with
    | zero => simp
    | succ n =>
      simp only [List.take_succ_cons, List.flatten_cons, List.mem_append, ih]
      constructor
      · rintro (hb | ⟨i, hi, hil, hmem⟩)
        · exact ⟨0, Nat.succ_pos n, Nat.succ_pos t.length, hb⟩
        · exact ⟨i + 1, Nat.succ_lt_succ hi, Nat.succ_lt_succ hil, hmem⟩
      · rintro ⟨i, hi, hil, hmem⟩
        cases i with
        | zero => exact Or.inl hmem
        | succ i =>
          exact Or.inr ⟨i, Nat.lt_of_succ_lt_succ hi,
            Nat.lt_of_succ_lt_succ hil, hmem⟩

lemma nodup_keys_unique {β : Type} {l : List (α × β)}
    (h : (l.map Prod.fst).Nodup) {e₁ e₂ : α × β}
    (h₁ : e₁ ∈ l) (h₂ : e₂ ∈ l) (hk : e₁.1 = e₂.1) : e₁ = e₂ := by
  obtain ⟨i₁, hi₁, hg₁⟩ := List.mem_iff_getElem.mp h₁
  obtain ⟨i₂, hi₂, hg₂⟩ := List.mem_iff_getElem.mp h₂
  have hlen : (l.map Prod.fst).length = l.length := List.length_map _ _
  have hm₁ : i₁ < (l.map Prod.fst).length := by rw [hlen]; exact hi₁
  have hm₂ : i₂ < (l.map Prod.fst).length := by rw [hlen]; exact hi₂
  have hkey : (l.map Prod.fst)[i₁] = (l.map Prod.fst)[i₂] := by
    rw [List.getElem_map, List.getElem_map, hg₁, hg₂]; exact hk
  have hii : i₁ = i₂ := (List.Nodup.getElem_inj_iff h).mp hkey
  subst hii
  rw [← hg₁, ← hg₂]

end ListHelpers

/-! ### Iterator-position lemmas -/

section Positions

lemma posAfter_oob (bs : List (List (K × V))) {i : Nat} (h : bs.length ≤ i) (j : Nat) :
    posAfter bs i j = (i, j) := by
  unfold posAfter
  rw [List.drop_eq_nil_of_le h]
  rfl

lemma drop_eq_getD_cons (bs : List (List (K × V))) {i : Nat} (h : i < bs.length) :
    bs.drop i = bs.getD i [] :: bs.drop (i + 1) := by
  rw [List.drop_eq_getElem_cons h]
  congr 1
  rw [getD_eq_getElem bs h]
  exact (List.get_eq_getElem bs ⟨i, h⟩).symm

lemma posAfter_stop (bs : List (List (K × V))) {i j : Nat} (hi : i < bs.length)
    (hj : j ≠ (bs.getD i []).length) : posAfter bs i j = (i, j) := by
  unfold posAfter
  rw [drop_eq_getD_cons bs hi]
  simp only [skipEnds]
  rw [if_neg hj]

lemma posAfter_skip (bs : List (List (K × V))) {i j : Nat} (hi : i < bs.length)
    (hj : j = (bs.getD i []).length) : posAfter bs i j = posAfter bs (i + 1) 0 := by
  unfold posAfter
  rw [drop_eq_getD_cons bs hi]
  simp only [skipEnds]
  rw [if_pos hj]

lemma endPos_concat (R : List (List (K × V))) (s : K × V) :
    endPos (R ++ [[s]]) = (R.length, 0) := by
  unfold endPos
  have hlen : (R ++ [[s]]).length - 1 = R.length := by simp
  rw [hlen]
  apply posAfter_stop
  · simp
  · rw [getD_app_last R [s] []]
    simp

lemma skipEnds_zero (l : List (List (K × V))) :
    ∀ i : Nat, skipEnds l i 0 = (i + l.findIdx (fun b => !b.isEmpty), 0) := by
  induction l with
  | nil => intro i; simp [skipEnds]
  | cons b t ih =>
    intro i
    by_cases hb : b.length = 0
    · have hbe : b = [] := List.eq_nil_of_length_eq_zero hb
      subst hbe
      rw [show skipEnds ([] :: t) i 0 = skipEnds t (i + 1) 0 from by
        simp [skipEnds]]
      rw [ih (i + 1), List.findIdx_cons]
      simp [Nat.add_assoc, Nat.add_comm 1]
    · have hne : (0 : Nat) ≠ b.length := fun hc => hb hc.symm
      rw [show skipEnds (b :: t) i 0 = (i, 0) from by simp [skipEnds, hne]]
      rw [List.findIdx_cons]
      have : b.isEmpty = false := by
        cases b with
        | nil => exact absurd rfl hb
        | cons x xs => rfl
      simp [this]

lemma begin_eq_posAfter_zero (bs : List (List (K × V))) :
    posAfter bs (bs.findIdx fun b => !b.isEmpty) 0 = posAfter bs 0 0 := by
  have hrhs : posAfter bs 0 0 = (bs.findIdx (fun b => !b.isEmpty), 0) := by
    unfold posAfter
    rw [List.drop_zero, skipEnds_zero bs 0]
    simp
  rw [hrhs]
  set idx := bs.findIdx (fun b => !b.isEmpty) with hidx
  by_cases h : idx < bs.length
  · apply posAfter_stop bs h
    have hp : (bs.get ⟨idx, h⟩).isEmpty = false := by
      have := @List.findIdx_getElem _ (fun b => !b.isEmpty) bs (by rw [← hidx]; exact h)
      simpa [← hidx] using this
    rw [getD_eq_getElem bs h]
    intro hc
    cases hbget : bs.get ⟨idx, h⟩ with
    | nil => rw [hbget] at hp; simp at hp
    | cons x xs => rw [hbget] at hc; simp at hc
  · push_neg at h
    exact posAfter_oob bs h 0

/-- The entries remaining to be visited from position `(i, j)`: the rest of
bucket `i` of the real buckets `R`, then all later real buckets. -/
def remFrom (R : List (List (K × V))) (i j : Nat) : List (K × V) :=
  ((R.getD i []).drop j) ++ (R.drop (i + 1)).flatten

lemma traverse_from (d s : K × V) (R : List (List (K × V))) :
    ∀ n : Nat, ∀ i j : Nat, R.length - i = n → i ≤ R.length →
      (i = R.length → j = 0) → j ≤ (R.getD i []).length →
      visitAux (R ++ [[s]]) d (remFrom R i j).length (posAfter (R ++ [[s]]) i j)
          = remFrom R i j ∧
      advanceN (R ++ [[s]]) (remFrom R i j).length (posAfter (R ++ [[s]]) i j)
          = (R.length, 0) := by
  intro n
  induction n with
  | zero =>
    intro i j hn hi hij hj
    have hiR : i = R.length := by omega
    subst hiR
    have hj0 : j = 0 := hij rfl
    subst hj0
    have hrem : remFrom R R.length 0 = [] := by
      unfold remFrom
      rw [getD_oob R (le_refl _), List.drop_eq_nil_of_le (Nat.le_succ _)]
      rfl
    have hpos : posAfter (R ++ [[s]]) R.length 0 = (R.length, 0) := by
      unfold posAfter
      rw [show (R ++ [[s]]).drop R.length = [[s]] from List.drop_left R [[s]]]
      simp [skipEnds]
    rw [hrem, hpos]
    exact ⟨rfl, rfl⟩
  | succ n ihn =>
    intro i j hn hi hij hj
    have hiR : i < R.length := by omega
    have hbs_len : i < (R ++ [[s]]).length := by
      rw [List.length_append]
      omega
    have hgetD : (R ++ [[s]]).getD i [] = R.getD i [] := getD_app_left R [[s]] [] hiR
    have inner : ∀ (t : List (K × V)) (j : Nat), (R.getD i []).drop j = t →
        j ≤ (R.getD i []).length →
        visitAux (R ++ [[s]]) d (remFrom R i j).length (posAfter (R ++ [[s]]) i j)
            = remFrom R i j ∧
        advanceN (R ++ [[s]]) (remFrom R i j).length (posAfter (R ++ [[s]]) i j)
            = (R.length, 0) := by
      intro t
      induction t with
      | nil =>
        intro j hdrop hjle
        have hjeq : j = (R.getD i []).length := by
          rcases Nat.lt_or_ge j (R.getD i []).length with hlt | hge
          · exfalso
            have hpos : 0 < ((R.getD i []).drop j).length := by
              rw [List.length_drop]; omega
            rw [hdrop] at hpos
            simp at hpos
          · omega
        have hskip : posAfter (R ++ [[s]]) i j = posAfter (R ++ [[s]]) (i + 1) 0 := by
          apply posAfter_skip _ hbs_len
          rw [hgetD]; exact hjeq
        have hremeq : remFrom R i j = remFrom R (i + 1) 0 := by
          unfold remFrom
          rw [hjeq, List.drop_length, flatten_drop_succ R (i + 1)]
          simp
        rw [hskip, hremeq]
        exact ihn (i + 1) 0 (by omega) (by omega) (fun _ => rfl) (Nat.zero_le _)
      | cons e t' iht =>
        intro j hdrop hjle
        have hjlt : j < (R.getD i []).length := by
          rcases Nat.lt_or_ge j (R.getD i []).length with hlt | hge
          · exact hlt
          · exfalso
            rw [List.drop_eq_nil_of_le hge] at hdrop
            exact (List.cons_ne_nil e t') hdrop.symm
        have hstop : posAfter (R ++ [[s]]) i j = (i, j) := by
          apply posAfter_stop _ hbs_len
          rw [hgetD]; omega
        have hbj : (R.getD i [])[j]? = some e := by
          have h1 : ((R.getD i []).drop j)[0]? = (R.getD i [])[j]? := by
            rw [List.getElem?_drop]
            rfl
          rw [hdrop] at h1
          simpa using h1.symm
        have hderef : derefAt (R ++ [[s]]) d (i, j) = e := by
          show ((R ++ [[s]]).getD i []).getD j d = e
          rw [hgetD, List.getD_eq_getElem?_getD, hbj]
          rfl
        have ht' : (R.getD i []).drop (j + 1) = t' := by
          rw [← List.tail_drop, hdrop]
          rfl
        have hrem_cons : remFrom R i j = e :: remFrom R i (j + 1) := by
          unfold remFrom
          rw [hdrop, ht']
          rfl
        have hadv : advancePos (R ++ [[s]]) (i, j) = posAfter (R ++ [[s]]) i (j + 1) := rfl
        have hne_end : ((i, j) : Nat × Nat) ≠ endPos (R ++ [[s]]) := by
          rw [endPos_concat]
          intro hc
          have := congrArg Prod.fst hc
          simp at this
          omega
        obtain ⟨ihv, iha⟩ := iht (j + 1) ht' (by omega)
        constructor
        · rw [hstop, hrem_cons, List.length_cons, visitAux, if_neg hne_end,
            hderef, hadv, ihv]
        · rw [hstop, hrem_cons, List.length_cons, advanceN, hadv, iha]
    exact inner ((R.getD i []).drop j) j rfl hj

end Positions

/-! ### The rehash loop -/

section RehashLoop

lemma placeEntry_length (hasher : K → Nat) (n : Nat) (acc : List (List (K × V)))
    (e : K × V) : (placeEntry hasher n acc e).length = acc.length :=
  List.length_set acc _ _

lemma foldl_placeEntry_length (hasher : K → Nat) (n : Nat) :
    ∀ (es : List (K × V)) (acc : List (List (K × V))),
      (es.foldl (placeEntry hasher n) acc).length = acc.length := by
  intro es
  induction es with
  | nil => intro acc; rfl
  | cons e es ih =>
    intro acc
    rw [List.foldl_cons, ih, placeEntry_length]

lemma foldl_placeEntry_perm (hasher : K → Nat) {n : Nat} (hn : 0 < n) :
    ∀ (es : List (K × V)) (acc : List (List (K × V))), acc.length = n →
      ((es.foldl (placeEntry hasher n) acc).flatten).Perm (acc.flatten ++ es) := by
  intro es
  induction es with
  | nil => intro acc _; simp
  | cons e es ih =>
    intro acc hlen
    rw [List.foldl_cons]
    have hstep : ((placeEntry hasher n acc e).flatten).Perm (acc.flatten ++ [e]) := by
      unfold placeEntry
      exact flatten_set_append_perm acc (by rw [hlen]; exact Nat.mod_lt _ hn) e
    have hlen2 : (placeEntry hasher n acc e).length = n := by
      rw [placeEntry_length, hlen]
    refine (ih (placeEntry hasher n acc e) hlen2).trans ?_
    refine (List.Perm.append_right es hstep).trans ?_
    rw [List.append_assoc]
    exact List.Perm.refl _

lemma foldl_placeEntry_placement (hasher : K → Nat) {n : Nat} :
    ∀ (es : List (K × V)) (acc : List (List (K × V))), acc.length = n →
      (∀ i, i < n → ∀ e, e ∈ acc.getD i [] → hasher e.1 % n = i) →
      ∀ i, i < n → ∀ e, e ∈ (es.foldl (placeEntry hasher n) acc).getD i [] →
        hasher e.1 % n = i := by
  intro es
  induction es with
  | nil => intro acc _ hacc; simpa using hacc
  | cons e es ih =>
    intro acc hlen hacc
    rw [List.foldl_cons]
    refine ih _ (by rw [placeEntry_length, hlen]) ?_
    intro i hi e2 he2
    unfold placeEntry at he2
    by_cases hip : hasher e.1 % n = i
    · subst hip
      rw [getD_set_self acc (by rw [hlen]; exact hi) _ _] at he2
      rcases List.mem_append.mp he2 with hold | hnew
      · exact hacc _ hi e2 hold
      · rw [List.mem_singleton.mp hnew]
    · rw [getD_set_ne acc hip _ _] at he2
      exact hacc i hi e2 he2

lemma newBuckets_length (m : HashMap K V) :
    (newBuckets m).length = m.sz * CHANGING_SIZE_COEFFICIENT := by
  unfold newBuckets
  rw [foldl_placeEntry_length, List.length_replicate]

lemma newBuckets_placement (m : HashMap K V) :
    ∀ i, i < m.sz * CHANGING_SIZE_COEFFICIENT →
      ∀ e, e ∈ (newBuckets m).getD i [] →
        m.hasher e.1 % (m.sz * CHANGING_SIZE_COEFFICIENT) = i := by
  unfold newBuckets
  exact foldl_placeEntry_placement m.hasher _ _ (List.length_replicate _ _)
    (fun i _ e he => absurd (getD_replicate_nil _ i ▸ he) (List.not_mem_nil e))

lemma newBuckets_perm (m : HashMap K V) (hsz : 0 < m.sz) :
    ((newBuckets m).flatten).Perm m.entriesOf := by
  unfold newBuckets
  have hn : 0 < m.sz * CHANGING_SIZE_COEFFICIENT := by
    unfold CHANGING_SIZE_COEFFICIENT
    omega
  have := foldl_placeEntry_perm m.hasher hn
    ((m.hash_map_.take m.capacity).flatten)
    (List.replicate (m.sz * CHANGING_SIZE_COEFFICIENT) [])
    (List.length_replicate _ _)
  simpa [HashMap.entriesOf] using this

end RehashLoop

/-! ### Well-formedness invariant of reachable tables -/

/-- The structural invariant maintained between the bucket vector and the
counters, except for the resting-state load-factor bound. -/
structure PreWF (m : HashMap K V) : Prop where
  cap_pos : 0 < m.capacity
  len_eq : m.hash_map_.length = m.capacity + 1
  sentinel_eq : m.hash_map_.getD m.capacity [] = [m.end_]
  placement : ∀ i, i < m.capacity → ∀ e, e ∈ m.hash_map_.getD i [] →
    m.hasher e.1 % m.capacity = i
  size_eq : m.sz = m.entriesOf.length
  keys_nodup : m.keysOf.Nodup

/-- The full invariant of resting (between-operations) table states. -/
structure WF (m : HashMap K V) extends PreWF m : Prop where
  size_lt : m.sz < m.capacity

section WFBasic

variable {m : HashMap K V}

lemma PreWF.take_len (h : PreWF m) :
    (m.hash_map_.take m.capacity).length = m.capacity := by
  rw [List.length_take, h.len_eq]
  omega

lemma PreWF.drop_cap (h : PreWF m) :
    m.hash_map_.drop m.capacity = [[m.end_]] := by
  have hlen : (m.hash_map_.drop m.capacity).length = 1 := by
    rw [List.length_drop, h.len_eq]
    omega
  obtain ⟨a, ha⟩ := List.length_eq_one.mp hlen
  have hget : (m.hash_map_.drop m.capacity).getD 0 [] = m.hash_map_.getD m.capacity [] := by
    simp only [List.getD_eq_getElem?_getD, List.getElem?_drop, Nat.add_zero]
  rw [ha] at hget
  simp only [List.getD_cons_zero] at hget
  rw [ha, hget, h.sentinel_eq]

lemma PreWF.bucket_decomp (h : PreWF m) :
    m.hash_map_ = m.hash_map_.take m.capacity ++ [[m.end_]] := by
  conv_lhs => rw [← List.take_append_drop m.capacity m.hash_map_]
  rw [h.drop_cap]

lemma PreWF.getD_take_lt (h : PreWF m) {i : Nat} (hi : i < m.capacity) :
    (m.hash_map_.take m.capacity).getD i [] = m.hash_map_.getD i [] := by
  simp only [List.getD_eq_getElem?_getD, List.getElem?_take, hi, if_pos]

lemma PreWF.endIter_eq (h : PreWF m) : m.endIter = (m.capacity, 0) := by
  unfold HashMap.endIter
  conv_lhs => rw [h.bucket_decomp]
  rw [endPos_concat, h.take_len]

lemma PreWF.mem_entriesOf (h : PreWF m) {e : K × V} :
    e ∈ m.entriesOf ↔ ∃ i, i < m.capacity ∧ e ∈ m.hash_map_.getD i [] := by
  unfold HashMap.entriesOf
  rw [mem_flatten_take]
  constructor
  · rintro ⟨i, hi, _, hm⟩
    exact ⟨i, hi, hm⟩
  · rintro ⟨i, hi, hm⟩
    exact ⟨i, hi, by rw [h.len_eq]; omega, hm⟩

lemma PreWF.hash_key_lt (h : PreWF m) (k : K) : m.hash_key k < m.capacity :=
  Nat.mod_lt _ h.cap_pos

lemma PreWF.entry_bucket (h : PreWF m) {e : K × V} (he : e ∈ m.entriesOf) :
    e ∈ m.hash_map_.getD (m.hash_key e.1) [] := by
  obtain ⟨i, hi, hm⟩ := h.mem_entriesOf.mp he
  have := h.placement i hi e hm
  unfold HashMap.hash_key
  rw [this]
  exact hm

lemma PreWF.key_in_bucket_iff (h : PreWF m) (k : K) :
    k ∈ m.keysOf ↔ ∃ e ∈ m.hash_map_.getD (m.hash_key k) [], e.1 = k := by
  constructor
  · intro hk
    obtain ⟨e, he, hek⟩ := List.mem_map.mp hk
    refine ⟨e, ?_, hek⟩
    rw [← hek]
    exact h.entry_bucket he
  · rintro ⟨e, he, hek⟩
    refine List.mem_map.mpr ⟨e, ?_, hek⟩
    exact h.mem_entriesOf.mpr ⟨m.hash_key k, h.hash_key_lt k, he⟩

lemma PreWF.bucketFindIdx_eq_len_iff (h : PreWF m) (k : K) :
    m.bucketFindIdx k = (m.hash_map_.getD (m.hash_key k) []).length ↔
      k ∉ m.keysOf := by
  unfold HashMap.bucketFindIdx
  rw [List.findIdx_eq_length, h.key_in_bucket_iff k]
  constructor
  · intro hall ⟨e, he, hek⟩
    have := hall e he
    simp [hek] at this
  · intro hnone e he
    by_contra hp
    simp only [Bool.not_eq_false, decide_eq_true_eq] at hp
    exact hnone ⟨e, he, hp⟩

lemma PreWF.find_eq_end_iff (h : PreWF m) (k : K) :
    m.find k = m.endIter ↔ k ∉ m.keysOf := by
  unfold HashMap.find
  by_cases hb : m.bucketFindIdx k = (m.hash_map_.getD (m.hash_key k) []).length
  · rw [if_pos hb]
    simpa using (h.bucketFindIdx_eq_len_iff k).mp hb
  · rw [if_neg hb]
    have hfound : ¬ k ∉ m.keysOf := fun hn =>
      hb ((h.bucketFindIdx_eq_len_iff k).mpr hn)
    have hlt : m.bucketFindIdx k < (m.hash_map_.getD (m.hash_key k) []).length :=
      Nat.lt_of_le_of_ne (List.findIdx_le_length _) hb
    have hbs : m.hash_key k < m.hash_map_.length := by
      rw [h.len_eq]
      have := h.hash_key_lt k
      omega
    rw [posAfter_stop m.hash_map_ hbs (Nat.ne_of_lt hlt), h.endIter_eq]
    constructor
    · intro hc
      exfalso
      have := congrArg Prod.fst hc
      simp only at this
      exact absurd this (Nat.ne_of_lt (h.hash_key_lt k))
    · intro hc
      exact absurd hc hfound

lemma PreWF.find_found (h : PreWF m) {k : K} (hk : k ∈ m.keysOf) :
    m.find k = (m.hash_key k, m.bucketFindIdx k) ∧
      m.bucketFindIdx k < (m.hash_map_.getD (m.hash_key k) []).length := by
  have hb : m.bucketFindIdx k ≠ (m.hash_map_.getD (m.hash_key k) []).length :=
    fun hc => ((h.bucketFindIdx_eq_len_iff k).mp hc) hk
  have hlt : m.bucketFindIdx k < (m.hash_map_.getD (m.hash_key k) []).length :=
    Nat.lt_of_le_of_ne (List.findIdx_le_length _) hb
  have hbs : m.hash_key k < m.hash_map_.length := by
    rw [h.len_eq]
    have := h.hash_key_lt k
    omega
  refine ⟨?_, hlt⟩
  unfold HashMap.find
  rw [if_neg hb, posAfter_stop m.hash_map_ hbs (Nat.ne_of_lt hlt)]

lemma PreWF.find_deref (h : PreWF m) {e : K × V} (he : e ∈ m.entriesOf) :
    derefAt m.hash_map_ m.end_ (m.find e.1) = e := by
  have hk : e.1 ∈ m.keysOf := List.mem_map.mpr ⟨e, he, rfl⟩
  obtain ⟨hfind, hlt⟩ := h.find_found hk
  rw [hfind]
  show (m.hash_map_.getD (m.hash_key e.1) []).getD (m.bucketFindIdx e.1) m.end_ = e
  have hlt2 : List.findIdx (fun x => decide (x.1 = e.1))
      (m.hash_map_.getD (m.hash_key e.1) []) <
      (m.hash_map_.getD (m.hash_key e.1) []).length := hlt
  have hmem : (m.hash_map_.getD (m.hash_key e.1) []).get ⟨m.bucketFindIdx e.1, hlt⟩
      ∈ m.hash_map_.getD (m.hash_key e.1) [] := List.get_mem _ _ _
  have hkey : ((m.hash_map_.getD (m.hash_key e.1) []).get
      ⟨m.bucketFindIdx e.1, hlt⟩).1 = e.1 := by
    have hw := @List.findIdx_getElem _ (fun x => decide (x.1 = e.1))
      (m.hash_map_.getD (m.hash_key e.1) []) hlt2
    simpa [HashMap.bucketFindIdx, List.get_eq_getElem] using hw
  have hbe : (m.hash_map_.getD (m.hash_key e.1) []).get ⟨m.bucketFindIdx e.1, hlt⟩
      ∈ m.entriesOf :=
    h.mem_entriesOf.mpr ⟨m.hash_key e.1, h.hash_key_lt e.1, hmem⟩
  have heq := nodup_keys_unique h.keys_nodup hbe he hkey
  rw [getD_eq_getElem _ hlt, heq]

end WFBasic

/-! ### Preservation of the invariant by every public operation -/

section Preservation

variable {m : HashMap K V}

lemma rehash_not_triggered (h : ¬(m.sz = m.capacity ∨ m.sz * 4 = m.capacity)) :
    m.rehash_if_necessary = m := by
  unfold HashMap.rehash_if_necessary
  rw [if_pos]
  push_neg at h
  unfold INCREASING_SIZE_COEFFICIENT DECREASING_SIZE_COEFFICIENT
  exact ⟨by rw [Nat.mul_one]; exact h.1, h.2⟩

lemma rehash_triggered (h : m.sz = m.capacity ∨ m.sz * 4 = m.capacity) :
    m.rehash_if_necessary =
      { m with
        hash_map_ := newBuckets m ++ [[m.end_]],
        capacity := m.sz * CHANGING_SIZE_COEFFICIENT } := by
  have hneg : ¬(m.sz * INCREASING_SIZE_COEFFICIENT ≠ m.capacity ∧
      m.sz * DECREASING_SIZE_COEFFICIENT ≠ m.capacity) := by
    unfold INCREASING_SIZE_COEFFICIENT DECREASING_SIZE_COEFFICIENT
    rcases h with h1 | h4
    · intro hc
      exact hc.1 (by omega)
    · intro hc
      exact hc.2 h4
  unfold HashMap.rehash_if_necessary
  rw [if_neg hneg]

lemma trigger_sz_pos (hcap : 0 < m.capacity)
    (h : m.sz = m.capacity ∨ m.sz * 4 = m.capacity) : 0 < m.sz := by
  rcases h with h1 | h4 <;> omega

lemma wf_rehash (h : PreWF m) (hle : m.sz ≤ m.capacity) :
    WF m.rehash_if_necessary := by
  by_cases ht : m.sz = m.capacity ∨ m.sz * 4 = m.capacity
  · rw [rehash_triggered ht]
    have hsz : 0 < m.sz := trigger_sz_pos h.cap_pos ht
    have hC : CHANGING_SIZE_COEFFICIENT = 2 := rfl
    have hperm := newBuckets_perm m hsz
    have hent :
        ({ m with
            hash_map_ := newBuckets m ++ [[m.end_]],
            capacity := m.sz * CHANGING_SIZE_COEFFICIENT } :
          HashMap K V).entriesOf = (newBuckets m).flatten := by
      show ((newBuckets m ++ [[m.end_]]).take (m.sz * CHANGING_SIZE_COEFFICIENT)).flatten
        = (newBuckets m).flatten
      rw [← newBuckets_length m, List.take_left]
    refine ⟨⟨?_, ?_, ?_, ?_, ?_, ?_⟩, ?_⟩
    · show 0 < m.sz * CHANGING_SIZE_COEFFICIENT
      rw [hC]; omega
    · show (newBuckets m ++ [[m.end_]]).length = m.sz * CHANGING_SIZE_COEFFICIENT + 1
      rw [List.length_append, newBuckets_length m]
      rfl
    · show (newBuckets m ++ [[m.end_]]).getD (m.sz * CHANGING_SIZE_COEFFICIENT) []
        = [m.end_]
      rw [← newBuckets_length m, getD_app_last]
    · intro i hi e he
      have hilen : i < (newBuckets m).length := by
        rw [newBuckets_length m]; exact hi
      rw [getD_app_left _ _ _ hilen] at he
      exact newBuckets_placement m i hi e he
    · show m.sz = _
      rw [hent, hperm.length_eq, ← h.size_eq]
    · show ((({ m with
            hash_map_ := newBuckets m ++ [[m.end_]],
            capacity := m.sz * CHANGING_SIZE_COEFFICIENT } :
          HashMap K V).entriesOf).map Prod.fst).Nodup
      rw [hent]
      exact ((hperm.map Prod.fst).nodup_iff).mpr h.keys_nodup
    · show m.sz < m.sz * CHANGING_SIZE_COEFFICIENT
      rw [hC]; omega
  · rw [rehash_not_triggered ht]
    push_neg at ht
    exact ⟨h, by omega⟩

lemma wf_mkHashMap (hasher : K → Nat) (d : K × V) : WF (mkHashMap hasher d) := by
  refine ⟨⟨?_, ?_, ?_, ?_, ?_, ?_⟩, ?_⟩
  · exact Nat.one_pos
  · rfl
  · rfl
  · intro i hi e he
    have hi1 : i < 1 := hi
    have hi0 : i = 0 := by omega
    subst hi0
    simp [mkHashMap] at he
  · rfl
  · show (([] : List (K × V)).map Prod.fst).Nodup
    simp
  · exact Nat.one_pos

lemma wf_clear (m : HashMap K V) : WF m.clear := by
  refine ⟨⟨?_, ?_, ?_, ?_, ?_, ?_⟩, ?_⟩
  · exact Nat.one_pos
  · rfl
  · rfl
  · intro i hi e he
    have hi1 : i < 1 := hi
    have hi0 : i = 0 := by omega
    subst hi0
    simp [HashMap.clear] at he
  · rfl
  · show (([] : List (K × V)).map Prod.fst).Nodup
    simp
  · exact Nat.one_pos

lemma insert_intermediate_entriesOf (h : PreWF m) (e : K × V) :
    (({ m with
        hash_map_ :=
          m.hash_map_.set (m.hash_key e.1)
            (m.hash_map_.getD (m.hash_key e.1) [] ++ [e]),
        sz := m.sz + 1 } : HashMap K V)).entriesOf.Perm (m.entriesOf ++ [e]) := by
  show ((m.hash_map_.set (m.hash_key e.1)
      (m.hash_map_.getD (m.hash_key e.1) [] ++ [e])).take m.capacity).flatten.Perm _
  rw [List.set_take, ← h.getD_take_lt (h.hash_key_lt e.1)]
  exact flatten_set_append_perm _ (by rw [h.take_len]; exact h.hash_key_lt e.1) e

lemma wf_insert (h : WF m) (e : K × V) : WF (m.insert e) := by
  unfold HashMap.insert
  by_cases hf : m.find e.1 ≠ m.endIter
  · rw [if_pos hf]
    exact h
  · rw [if_neg hf]
    push_neg at hf
    have habs : e.1 ∉ m.keysOf := (h.toPreWF.find_eq_end_iff e.1).mp hf
    have hiR : m.hash_key e.1 < m.capacity := h.toPreWF.hash_key_lt e.1
    have hibs : m.hash_key e.1 < m.hash_map_.length := by
      rw [h.len_eq]; omega
    have hperm := insert_intermediate_entriesOf h.toPreWF e
    refine wf_rehash ⟨?_, ?_, ?_, ?_, ?_, ?_⟩ ?_
    · exact h.cap_pos
    · show (m.hash_map_.set _ _).length = m.capacity + 1
      rw [List.length_set]
      exact h.len_eq
    · show (m.hash_map_.set _ _).getD m.capacity [] = [m.end_]
      rw [getD_set_ne m.hash_map_ (Nat.ne_of_lt hiR)]
      exact h.sentinel_eq
    · intro i hi e2 he2
      by_cases hie : m.hash_key e.1 = i
      · subst hie
        rw [getD_set_self m.hash_map_ hibs] at he2
        rcases List.mem_append.mp he2 with hold | hnew
        · exact h.placement _ hi e2 hold
        · rw [List.mem_singleton.mp hnew]
          rfl
      · rw [getD_set_ne m.hash_map_ hie] at he2
        exact h.placement i hi e2 he2
    · show m.sz + 1 = _
      rw [hperm.length_eq, List.length_append, List.length_singleton,
        ← h.size_eq]
    · have hkey : ((({ m with
          hash_map_ :=
            m.hash_map_.set (m.hash_key e.1)
              (m.hash_map_.getD (m.hash_key e.1) [] ++ [e]),
          sz := m.sz + 1 } : HashMap K V)).keysOf).Perm (e.1 :: m.keysOf) := by
        unfold HashMap.keysOf
        refine (hperm.map Prod.fst).trans ?_
        rw [List.map_append]
        exact List.perm_append_singleton _ _
      rw [hkey.nodup_iff, List.nodup_cons]
      exact ⟨habs, h.keys_nodup⟩
    · show m.sz + 1 ≤ m.capacity
      have := h.size_lt
      omega

lemma erase_removed_mem (h : PreWF m) {k : K}
    (hlt : m.bucketFindIdx k < (m.hash_map_.getD (m.hash_key k) []).length) :
    (m.hash_map_.getD (m.hash_key k) []).getD (m.bucketFindIdx k) m.end_
      ∈ m.entriesOf := by
  have hxget : (m.hash_map_.getD (m.hash_key k) []).get ⟨m.bucketFindIdx k, hlt⟩
      = (m.hash_map_.getD (m.hash_key k) []).getD (m.bucketFindIdx k) m.end_ :=
    (getD_eq_getElem _ hlt m.end_).symm
  have hxmem : (m.hash_map_.getD (m.hash_key k) []).getD (m.bucketFindIdx k) m.end_
      ∈ m.hash_map_.getD (m.hash_key k) [] := by
    rw [← hxget]
    exact List.get_mem _ _ _
  exact h.mem_entriesOf.mpr ⟨m.hash_key k, h.hash_key_lt k, hxmem⟩

lemma erase_removed_key (h : PreWF m) {k : K}
    (hlt : m.bucketFindIdx k < (m.hash_map_.getD (m.hash_key k) []).length) :
    ((m.hash_map_.getD (m.hash_key k) []).getD (m.bucketFindIdx k) m.end_).1 = k := by
  have hlt2 : List.findIdx (fun x => decide (x.1 = k))
      (m.hash_map_.getD (m.hash_key k) []) <
      (m.hash_map_.getD (m.hash_key k) []).length := hlt
  have hw := @List.findIdx_getElem _ (fun x => decide (x.1 = k))
    (m.hash_map_.getD (m.hash_key k) []) hlt2
  rw [getD_eq_getElem _ hlt]
  simpa [HashMap.bucketFindIdx, List.get_eq_getElem] using hw

lemma erase_intermediate_perm (h : PreWF m) {k : K}
    (hlt : m.bucketFindIdx k < (m.hash_map_.getD (m.hash_key k) []).length) :
    ((({ m with
        hash_map_ :=
          m.hash_map_.set (m.hash_key k)
            ((m.hash_map_.getD (m.hash_key k) []).eraseIdx (m.bucketFindIdx k)),
        sz := m.sz - 1 } : HashMap K V)).entriesOf
      ++ [(m.hash_map_.getD (m.hash_key k) []).getD (m.bucketFindIdx k) m.end_]).Perm
      m.entriesOf := by
  have hiR : m.hash_key k < m.capacity := h.hash_key_lt k
  have heqb : (m.hash_map_.take m.capacity).getD (m.hash_key k) []
      = m.hash_map_.getD (m.hash_key k) [] := h.getD_take_lt hiR
  have hlt2 : m.bucketFindIdx k <
      ((m.hash_map_.take m.capacity).getD (m.hash_key k) []).length := by
    rw [heqb]
    exact hlt
  have hlem := flatten_set_eraseIdx_perm (m.hash_map_.take m.capacity)
    (by rw [h.take_len]; exact hiR) hlt2
  have hxeq : ((m.hash_map_.take m.capacity).getD (m.hash_key k) []).get
      ⟨m.bucketFindIdx k, hlt2⟩
      = (m.hash_map_.getD (m.hash_key k) []).getD (m.bucketFindIdx k) m.end_ := by
    rw [← getD_eq_getElem _ hlt2 m.end_, heqb]
  rw [hxeq] at hlem
  rw [heqb] at hlem
  show (((m.hash_map_.set (m.hash_key k)
      ((m.hash_map_.getD (m.hash_key k) []).eraseIdx
        (m.bucketFindIdx k))).take m.capacity).flatten ++ _).Perm _
  rw [List.set_take]
  exact hlem

lemma wf_erase (h : WF m) (k : K) : WF (m.erase k) := by
  unfold HashMap.erase
  by_cases hb : m.bucketFindIdx k = (m.hash_map_.getD (m.hash_key k) []).length
  · rw [if_pos hb]
    exact h
  · rw [if_neg hb]
    have hlt : m.bucketFindIdx k < (m.hash_map_.getD (m.hash_key k) []).length :=
      Nat.lt_of_le_of_ne (List.findIdx_le_length _) hb
    have hiR : m.hash_key k < m.capacity := h.toPreWF.hash_key_lt k
    have hibs : m.hash_key k < m.hash_map_.length := by
      rw [h.len_eq]; omega
    have hxent := erase_removed_mem h.toPreWF hlt
    have hszpos : 0 < m.sz := by
      rw [h.size_eq]
      exact List.length_pos_of_mem hxent
    have hperm := erase_intermediate_perm h.toPreWF hlt
    refine wf_rehash ⟨?_, ?_, ?_, ?_, ?_, ?_⟩ ?_
    · exact h.cap_pos
    · show (m.hash_map_.set _ _).length = m.capacity + 1
      rw [List.length_set]
      exact h.len_eq
    · show (m.hash_map_.set _ _).getD m.capacity [] = [m.end_]
      rw [getD_set_ne m.hash_map_ (Nat.ne_of_lt hiR)]
      exact h.sentinel_eq
    · intro i hi e2 he2
      by_cases hie : m.hash_key k = i
      · subst hie
        rw [getD_set_self m.hash_map_ hibs] at he2
        have : e2 ∈ m.hash_map_.getD (m.hash_key k) [] :=
          (List.eraseIdx_sublist _ _).mem he2
        exact h.placement _ hi e2 this
      · rw [getD_set_ne m.hash_map_ hie] at he2
        exact h.placement i hi e2 he2
    · show m.sz - 1 = _
      have hlen := hperm.length_eq
      rw [List.length_append, List.length_singleton] at hlen
      rw [← h.size_eq] at hlen
      omega
    · have hnodup2 : ((({ m with
          hash_map_ :=
            m.hash_map_.set (m.hash_key k)
              ((m.hash_map_.getD (m.hash_key k) []).eraseIdx (m.bucketFindIdx k)),
          sz := m.sz - 1 } : HashMap K V)).keysOf
            ++ [((m.hash_map_.getD (m.hash_key k) []).getD
                  (m.bucketFindIdx k) m.end_).1]).Nodup := by
      -- keys of the shrunken table plus the removed key are a permutation of
      -- the old keys, which are nodup
        have := (hperm.map Prod.fst).nodup_iff
        rw [List.map_append] at this
        exact this.mpr h.keys_nodup
      exact (List.nodup_append.mp hnodup2).1
    · show m.sz - 1 ≤ m.capacity
      have := h.size_lt
      omega

lemma wf_opIndex (h : WF m) (k : K) : WF (m.opIndex k).1 :=
  wf_insert h (k, m.end_.2)

lemma reachable_wf {m : HashMap K V} (hr : Reachable m) : WF m := by
  induction hr with
  | init hasher d => exact wf_mkHashMap hasher d
  | insert e _ ih => exact wf_insert ih e
  | erase k _ ih => exact wf_erase ih k
  | opIndex k _ ih => exact wf_opIndex ih k
  | clear _ ih => exact wf_clear _

end Preservation

/-! ### Operation-level specifications -/

section OpSpecs

variable {m : HashMap K V}

lemma rehash_sz (m : HashMap K V) : m.rehash_if_necessary.sz = m.sz := by
  unfold HashMap.rehash_if_necessary
  split <;> rfl

lemma rehash_end_ (m : HashMap K V) : m.rehash_if_necessary.end_ = m.end_ := by
  unfold HashMap.rehash_if_necessary
  split <;> rfl

lemma build_entriesOf (m : HashMap K V) :
    ({ m with
        hash_map_ := newBuckets m ++ [[m.end_]],
        capacity := m.sz * CHANGING_SIZE_COEFFICIENT } : HashMap K V).entriesOf
      = (newBuckets m).flatten := by
  show ((newBuckets m ++ [[m.end_]]).take (m.sz * CHANGING_SIZE_COEFFICIENT)).flatten
    = (newBuckets m).flatten
  rw [← newBuckets_length m, List.take_left]

lemma rehash_entriesOf_perm (hcap : 0 < m.capacity) :
    m.rehash_if_necessary.entriesOf.Perm m.entriesOf := by
  by_cases ht : m.sz = m.capacity ∨ m.sz * 4 = m.capacity
  · rw [rehash_triggered ht, build_entriesOf m]
    exact newBuckets_perm m (trigger_sz_pos hcap ht)
  · rw [rehash_not_triggered ht]

lemma insert_present (h : WF m) {k : K} (v : V) (hk : k ∈ m.keysOf) :
    m.insert (k, v) = m := by
  unfold HashMap.insert
  rw [if_pos]
  intro hc
  exact ((h.toPreWF.find_eq_end_iff k).mp hc) hk

lemma insert_absent_eq (h : WF m) {k : K} (v : V) (hk : k ∉ m.keysOf) :
    m.insert (k, v) =
      HashMap.rehash_if_necessary
        { m with
          hash_map_ :=
            m.hash_map_.set (m.hash_key k)
              (m.hash_map_.getD (m.hash_key k) [] ++ [(k, v)]),
          sz := m.sz + 1 } := by
  unfold HashMap.insert
  rw [if_neg (not_not_intro ((h.toPreWF.find_eq_end_iff k).mpr hk))]

lemma insert_absent_entries (h : WF m) {k : K} (v : V) (hk : k ∉ m.keysOf) :
    (m.insert (k, v)).entriesOf.Perm ((k, v) :: m.entriesOf) := by
  rw [insert_absent_eq h v hk]
  apply List.Perm.trans
  · exact rehash_entriesOf_perm h.cap_pos
  · exact (insert_intermediate_entriesOf h.toPreWF (k, v)).trans
      (List.perm_append_singleton _ _)

lemma insert_absent_sz (h : WF m) {k : K} (v : V) (hk : k ∉ m.keysOf) :
    (m.insert (k, v)).sz = m.sz + 1 := by
  rw [insert_absent_eq h v hk, rehash_sz]

lemma insert_end_ (m : HashMap K V) (e : K × V) : (m.insert e).end_ = m.end_ := by
  unfold HashMap.insert
  split
  · rfl
  · rw [rehash_end_]

lemma at_error_iff (h : WF m) (k : K) :
    m.at' k
        = Except.error "HashMap<KeyType, ValueType, Hash>::at() : key is not exist"
      ↔ k ∉ m.keysOf := by
  unfold HashMap.at'
  by_cases hf : m.find k = m.endIter
  · rw [if_pos hf]
    simp [(h.toPreWF.find_eq_end_iff k).mp hf]
  · rw [if_neg hf]
    constructor
    · intro hc
      exact absurd hc (by simp)
    · intro hk
      exact absurd ((h.toPreWF.find_eq_end_iff k).mpr hk) hf

lemma at_ok (h : WF m) {e : K × V} (he : e ∈ m.entriesOf) :
    m.at' e.1 = Except.ok e.2 := by
  have hk : e.1 ∈ m.keysOf := List.mem_map.mpr ⟨e, he, rfl⟩
  have hf : m.find e.1 ≠ m.endIter := fun hc =>
    ((h.toPreWF.find_eq_end_iff e.1).mp hc) hk
  unfold HashMap.at'
  rw [if_neg hf, h.toPreWF.find_deref he]

lemma erase_absent (h : WF m) {k : K} (hk : k ∉ m.keysOf) : m.erase k = m := by
  unfold HashMap.erase
  rw [if_pos ((h.toPreWF.bucketFindIdx_eq_len_iff k).mpr hk)]

lemma erase_present_spec (h : WF m) {k : K} (hk : k ∈ m.keysOf) :
    (m.erase k).sz + 1 = m.sz ∧
      ∀ e : K × V, e ∈ (m.erase k).entriesOf ↔ e ∈ m.entriesOf ∧ e.1 ≠ k := by
  have hb : m.bucketFindIdx k ≠ (m.hash_map_.getD (m.hash_key k) []).length :=
    fun hc => ((h.toPreWF.bucketFindIdx_eq_len_iff k).mp hc) hk
  have hlt : m.bucketFindIdx k < (m.hash_map_.getD (m.hash_key k) []).length :=
    Nat.lt_of_le_of_ne (List.findIdx_le_length _) hb
  have herase_eq : m.erase k =
      HashMap.rehash_if_necessary
        { m with
          hash_map_ :=
            m.hash_map_.set (m.hash_key k)
              ((m.hash_map_.getD (m.hash_key k) []).eraseIdx (m.bucketFindIdx k)),
          sz := m.sz - 1 } := by
    unfold HashMap.erase
    rw [if_neg hb]
  have hx1 := erase_removed_key h.toPreWF hlt
  have hxent := erase_removed_mem h.toPreWF hlt
  have hszpos : 0 < m.sz := by
    rw [h.size_eq]
    exact List.length_pos_of_mem hxent
  have hmid := erase_intermediate_perm h.toPreWF hlt
  have hE : (m.erase k).entriesOf.Perm
      ((({ m with
          hash_map_ :=
            m.hash_map_.set (m.hash_key k)
              ((m.hash_map_.getD (m.hash_key k) []).eraseIdx (m.bucketFindIdx k)),
          sz := m.sz - 1 } : HashMap K V)).entriesOf) := by
    rw [herase_eq]
    exact rehash_entriesOf_perm h.cap_pos
  have hbig : ((m.erase k).entriesOf
      ++ [(m.hash_map_.getD (m.hash_key k) []).getD (m.bucketFindIdx k) m.end_]).Perm
      m.entriesOf := (hE.append_right _).trans hmid
  constructor
  · have hlen := hbig.length_eq
    rw [List.length_append, List.length_singleton, ← h.size_eq] at hlen
    have hsz_erase : (m.erase k).sz = m.sz - 1 := by
      rw [herase_eq, rehash_sz]
    omega
  · intro e
    have hknodup := h.keys_nodup
    have hkeys_perm : (((m.erase k).entriesOf.map Prod.fst) ++ [k]).Perm m.keysOf := by
      have hmap := hbig.map Prod.fst
      rw [List.map_append,
        show List.map Prod.fst
            [(m.hash_map_.getD (m.hash_key k) []).getD (m.bucketFindIdx k) m.end_]
          = [k] from by rw [List.map_singleton, hx1]] at hmap
      exact hmap
    have hknotin : k ∉ (m.erase k).entriesOf.map Prod.fst := by
      have hnodup2 : (((m.erase k).entriesOf.map Prod.fst) ++ [k]).Nodup :=
        (hkeys_perm.nodup_iff).mpr hknodup
      have := ((List.perm_append_singleton k _).nodup_iff).mp hnodup2
      exact (List.nodup_cons.mp this).1
    constructor
    · intro he
      refine ⟨hbig.mem_iff.mp (List.mem_append.mpr (Or.inl he)), ?_⟩
      intro hek
      exact hknotin (List.mem_map.mpr ⟨e, he, hek⟩)
    · rintro ⟨he, hne⟩
      rcases List.mem_append.mp (hbig.symm.mem_iff.mp he) with h1 | h2
      · exact h1
      · exfalso
        rw [List.mem_singleton.mp h2] at hne
        exact hne hx1

lemma remFrom_zero (R : List (List (K × V))) : remFrom R 0 0 = R.flatten := by
  unfold remFrom
  rw [List.drop_zero, ← flatten_drop_succ, List.drop_zero]

lemma wf_traversal {m : HashMap K V} (h : WF m) :
    visitAux m.hash_map_ m.end_ m.sz m.beginIter = m.entriesOf ∧
      advanceN m.hash_map_ m.sz m.beginIter = m.endIter := by
  set R := m.hash_map_.take m.capacity with hR
  have hbs : m.hash_map_ = R ++ [[m.end_]] := h.toPreWF.bucket_decomp
  obtain ⟨hv, ha⟩ := traverse_from m.end_ m.end_ R R.length 0 0 rfl
    (Nat.zero_le _) (fun _ => rfl) (Nat.zero_le _)
  have hrem : remFrom R 0 0 = R.flatten := remFrom_zero R
  have hent : m.entriesOf = R.flatten := by rw [hR]; rfl
  have hRlen : R.length = m.capacity := by
    rw [hR]
    exact h.toPreWF.take_len
  have hbegin : m.beginIter = posAfter m.hash_map_ 0 0 :=
    begin_eq_posAfter_zero m.hash_map_
  have hend : m.endIter = (R.length, 0) := by
    rw [h.toPreWF.endIter_eq, hRlen]
  have hfuel : m.sz = (remFrom R 0 0).length := by
    rw [hrem, ← hent]
    exact h.size_eq
  constructor
  · rw [hbegin, hbs, hfuel, hv, hrem, hent]
  · rw [hbegin, hbs, hfuel, ha, hend]

end OpSpecs

/-! ### The claims -/

section Claims

/-- Claim C1: `rehash_if_necessary` (run after every successful insert or
erase) changes the capacity if and only if exactly `size == capacity` or
exactly `size * 4 == capacity` holds at that point; in either case the new
capacity is `2 * size`, every entry ends up in bucket
`hash(key) mod new capacity`, the sentinel bucket is re-appended as the last
bucket, and the stored entries are preserved; if neither equality holds the
table is unchanged. -/
theorem C1_resize_policy (m : HashMap K V) (hcap : 0 < m.capacity) :
    (m.rehash_if_necessary.capacity ≠ m.capacity ↔
      (m.sz = m.capacity ∨ m.sz * 4 = m.capacity)) ∧
    ((m.sz = m.capacity ∨ m.sz * 4 = m.capacity) →
      m.rehash_if_necessary.capacity = 2 * m.sz ∧
      m.rehash_if_necessary.hash_map_.getLast? = some [m.end_] ∧
      (∀ i, i < m.rehash_if_necessary.capacity →
        ∀ e, e ∈ m.rehash_if_necessary.hash_map_.getD i [] →
          m.hasher e.1 % (2 * m.sz) = i) ∧
      m.rehash_if_necessary.entriesOf.Perm m.entriesOf) ∧
    (¬(m.sz = m.capacity ∨ m.sz * 4 = m.capacity) → m.rehash_if_necessary = m) := by
  have hC : CHANGING_SIZE_COEFFICIENT = 2 := rfl
  refine ⟨⟨?_, ?_⟩, ?_, ?_⟩
  · intro hne
    by_contra ht
    rw [rehash_not_triggered ht] at hne
    exact hne rfl
  · intro ht
    have hsz := trigger_sz_pos hcap ht
    rw [rehash_triggered ht]
    show m.sz * CHANGING_SIZE_COEFFICIENT ≠ m.capacity
    rw [hC]
    rcases ht with h1 | h4 <;> omega
  · intro ht
    have hsz := trigger_sz_pos hcap ht
    rw [rehash_triggered ht]
    refine ⟨?_, ?_, ?_, ?_⟩
    · show m.sz * CHANGING_SIZE_COEFFICIENT = 2 * m.sz
      rw [hC, Nat.mul_comm]
    · show (newBuckets m ++ [[m.end_]]).getLast? = some [m.end_]
      exact List.getLast?_concat _
    · intro i hi e he
      have hi2 : i < m.sz * CHANGING_SIZE_COEFFICIENT := hi
      have hilen : i < (newBuckets m).length := by
        rw [newBuckets_length m]
        exact hi2
      have he2 : e ∈ (newBuckets m).getD i [] := by
        rw [← getD_app_left (newBuckets m) [[m.end_]] [] hilen]
        exact he
      have := newBuckets_placement m i hi2 e he2
      rw [hC] at this
      rw [show 2 * m.sz = m.sz * 2 from Nat.mul_comm 2 m.sz]
      exact this
    · rw [build_entriesOf m]
      exact newBuckets_perm m hsz
  · exact rehash_not_triggered

/-- Claim C2: in every reachable table state, every stored entry resides in
the real bucket whose index is `hash(key) mod capacity`. -/
theorem C2_bucket_placement (m : HashMap K V) (hr : Reachable m) :
    ∀ i, i < m.capacity → ∀ e, e ∈ m.hash_map_.getD i [] →
      m.hasher e.1 % m.capacity = i :=
  (reachable_wf hr).placement

/-- Claim C8: in every reachable table state the bucket vector consists of
`capacity ≥ 1` real buckets followed by the sentinel bucket, which is the
last bucket and holds exactly the one default-constructed element. -/
theorem C8_sentinel_invariant (m : HashMap K V) (hr : Reachable m) :
    1 ≤ m.capacity ∧ m.hash_map_.length = m.capacity + 1 ∧
      m.hash_map_.getLast? = some [m.end_] := by
  have h := reachable_wf hr
  refine ⟨h.cap_pos, h.len_eq, ?_⟩
  rw [h.toPreWF.bucket_decomp]
  exact List.getLast?_concat _

/-- Claim C9: `clear()` resets any table to the initial empty state: size 0,
`empty()` true, capacity 1, one empty real bucket plus the intact sentinel
bucket, and `find` returns the end position for every key. -/
theorem C9_clear (m : HashMap K V) (k : K) :
    m.clear.sz = 0 ∧ m.clear.isTableEmpty = true ∧ m.clear.capacity = 1 ∧
      m.clear.hash_map_ = [[], [m.end_]] ∧ m.clear.find k = m.clear.endIter := by
  refine ⟨rfl, rfl, rfl, rfl, ?_⟩
  unfold HashMap.find HashMap.bucketFindIdx HashMap.hash_key
  simp [HashMap.clear, Nat.mod_one]

/-- Claim C10: in every reachable (resting) table state the size is strictly
below the capacity, so the grow trigger `size == capacity` can only hold
transiently inside a mutating operation. -/
theorem C10_load_factor (m : HashMap K V) (hr : Reachable m) :
    m.sz < m.capacity :=
  (reachable_wf hr).size_lt

/-- Claim C3: insert is first-write-wins: on a present key `insert` leaves
the entire table state unchanged; on an absent key it stores the pair, makes
`at` return the inserted value, and increments the size by exactly 1. -/
theorem C3_insert_first_write_wins (m : HashMap K V) (hr : Reachable m)
    (k : K) (v : V) :
    (k ∈ m.keysOf → m.insert (k, v) = m) ∧
    (k ∉ m.keysOf →
      (m.insert (k, v)).at' k = Except.ok v ∧
      (m.insert (k, v)).sz = m.sz + 1) := by
  have h := reachable_wf hr
  constructor
  · intro hk
    exact insert_present h v hk
  · intro hk
    have hwf2 : WF (m.insert (k, v)) := wf_insert h (k, v)
    have hperm := insert_absent_entries h v hk
    have hmem : (k, v) ∈ (m.insert (k, v)).entriesOf :=
      hperm.mem_iff.mpr (List.mem_cons_self _ _)
    exact ⟨at_ok hwf2 hmem, insert_absent_sz h v hk⟩

/-- Claim C4: iterating from `begin()` by repeated increment visits exactly
`size()` entries, each stored key exactly once, the visited keys are exactly
the stored keys, the iterator reaches `end()` after exactly `size()`
increments, and on an empty table `begin()` equals `end()`. -/
theorem C4_iteration (m : HashMap K V) (hr : Reachable m) :
    (visitAux m.hash_map_ m.end_ m.sz m.beginIter).length = m.sz ∧
    ((visitAux m.hash_map_ m.end_ m.sz m.beginIter).map Prod.fst).Nodup ∧
    (∀ k : K, k ∈ (visitAux m.hash_map_ m.end_ m.sz m.beginIter).map Prod.fst ↔
      k ∈ m.keysOf) ∧
    advanceN m.hash_map_ m.sz m.beginIter = m.endIter ∧
    (m.sz = 0 → m.beginIter = m.endIter) := by
  have h := reachable_wf hr
  obtain ⟨hv, ha⟩ := wf_traversal h
  refine ⟨?_, ?_, ?_, ha, ?_⟩
  · rw [hv]
    exact h.size_eq.symm
  · rw [hv]
    exact h.keys_nodup
  · intro k
    rw [hv]
    exact Iff.rfl
  · intro hsz
    have := ha
    rw [hsz] at this
    exact this

/-- Claim C5: `at` fails with the "key is not exist" out-of-range error if
and only if the key is absent, and returns the stored value when the key is
present.  In the embedding `at'` returns only an `Except` value and every
other public operation is a total function, so `at'` mutates nothing and is
the only operation with an error outcome by construction. -/
theorem C5_at (m : HashMap K V) (hr : Reachable m) (k : K) :
    (m.at' k
        = Except.error "HashMap<KeyType, ValueType, Hash>::at() : key is not exist"
      ↔ k ∉ m.keysOf) ∧
    (∀ e ∈ m.entriesOf, e.1 = k → m.at' k = Except.ok e.2) := by
  have h := reachable_wf hr
  refine ⟨at_error_iff h k, ?_⟩
  intro e he hek
  rw [← hek]
  exact at_ok h he

/-- Claim C6: `operator[]` never fails: on an absent key it first inserts the
key with the default-constructed value and returns that value (the key is
then present with the default value and the size has grown by 1); on a
present key it returns the stored value and leaves the table unchanged. -/
theorem C6_index_operator (m : HashMap K V) (hr : Reachable m) (k : K) :
    (k ∉ m.keysOf →
      (m.opIndex k).2 = m.end_.2 ∧
      k ∈ (m.opIndex k).1.keysOf ∧
      (m.opIndex k).1.sz = m.sz + 1 ∧
      (∀ e ∈ (m.opIndex k).1.entriesOf, e.1 = k → e.2 = m.end_.2)) ∧
    (k ∈ m.keysOf →
      (m.opIndex k).1 = m ∧
      (∀ e ∈ m.entriesOf, e.1 = k → (m.opIndex k).2 = e.2)) := by
  have h := reachable_wf hr
  constructor
  · intro hk
    have hwf2 : WF (m.insert (k, m.end_.2)) := wf_insert h (k, m.end_.2)
    have hperm := insert_absent_entries h m.end_.2 hk
    have hmem : (k, m.end_.2) ∈ (m.insert (k, m.end_.2)).entriesOf :=
      hperm.mem_iff.mpr (List.mem_cons_self _ _)
    refine ⟨?_, ?_, ?_, ?_⟩
    · show (derefAt (m.insert (k, m.end_.2)).hash_map_
        (m.insert (k, m.end_.2)).end_ ((m.insert (k, m.end_.2)).find k)).2
          = m.end_.2
      rw [hwf2.toPreWF.find_deref hmem]
    · exact List.mem_map.mpr ⟨(k, m.end_.2), hmem, rfl⟩
    · exact insert_absent_sz h m.end_.2 hk
    · intro e he hek
      have := nodup_keys_unique hwf2.keys_nodup he hmem hek
      rw [this]
  · intro hk
    have heq : m.insert (k, m.end_.2) = m := insert_present h m.end_.2 hk
    constructor
    · show m.insert (k, m.end_.2) = m
      exact heq
    · intro e he hek
      show (derefAt (m.insert (k, m.end_.2)).hash_map_
        (m.insert (k, m.end_.2)).end_ ((m.insert (k, m.end_.2)).find k)).2 = e.2
      rw [heq, ← hek, h.toPreWF.find_deref he]

/-- Claim C7: `erase` on an absent key is a no-op leaving the table
unchanged; on a present key it removes exactly the single entry with that
key and decrements the size by exactly 1, keeping every other entry. -/
theorem C7_erase (m : HashMap K V) (hr : Reachable m) (k : K) :
    (k ∉ m.keysOf → m.erase k = m) ∧
    (k ∈ m.keysOf →
      (m.erase k).sz + 1 = m.sz ∧
      (∀ e : K × V, e ∈ (m.erase k).entriesOf ↔ e ∈ m.entriesOf ∧ e.1 ≠ k)) := by
  have h := reachable_wf hr
  exact ⟨fun hk => erase_absent h hk, fun hk => erase_present_spec h hk⟩

end Claims

/-! ### Concrete witnesses -/

section Witnesses

/-- The identity hasher used in the concrete witness tables. -/
def sampleHasher : Nat → Nat := fun n => n

/-- A concrete reachable table: one insert into a fresh table.  Its state is
`hash_map_ = [[], [(1, 10)], [(0, 0)]]`, `sz_ = 1`, `capacity_ = 2`. -/
def sampleM : HashMap Nat Nat := (mkHashMap sampleHasher (0, 0)).insert (1, 10)

lemma sampleM_reachable : Reachable sampleM :=
  Reachable.insert (1, 10) (Reachable.init sampleHasher (0, 0))

/-- Witness for C1 at a table with `sz_ = 1`, `capacity_ = 2`: neither
trigger holds, so the rehash is the identity. -/
theorem C1_resize_policy_witness :
    0 < sampleM.capacity ∧ sampleM.rehash_if_necessary = sampleM :=
  ⟨by decide, (C1_resize_policy sampleM (by decide)).2.2 (by decide)⟩

/-- Witness for C2: the entry `(1, 10)` of `sampleM` sits in bucket
`hash(1) mod 2 = 1`. -/
theorem C2_bucket_placement_witness :
    sampleM.hasher ((1 : Nat), (10 : Nat)).1 % sampleM.capacity = 1 :=
  C2_bucket_placement sampleM sampleM_reachable 1 (by decide) (1, 10) (by decide)

/-- Witness for C3: inserting the absent key 2 stores value 20 and grows the
size by 1. -/
theorem C3_insert_first_write_wins_witness :
    (sampleM.insert (2, 20)).at' 2 = Except.ok 20 ∧
      (sampleM.insert (2, 20)).sz = sampleM.sz + 1 :=
  (C3_insert_first_write_wins sampleM sampleM_reachable 2 20).2 (by decide)

/-- Witness for C4: iterating `sampleM` visits exactly `size()` entries. -/
theorem C4_iteration_witness :
    (visitAux sampleM.hash_map_ sampleM.end_ sampleM.sz sampleM.beginIter).length
      = sampleM.sz :=
  (C4_iteration sampleM sampleM_reachable).1

/-- Witness for C5: `at` on the present key 1 of `sampleM` returns 10. -/
theorem C5_at_witness : sampleM.at' 1 = Except.ok 10 :=
  (C5_at sampleM sampleM_reachable 1).2 (1, 10) (by decide) rfl

/-- Witness for C6: `operator[]` on the absent key 7 of `sampleM` returns
the default-constructed value. -/
theorem C6_index_operator_witness : (sampleM.opIndex 7).2 = sampleM.end_.2 :=
  ((C6_index_operator sampleM sampleM_reachable 7).1 (by decide)).1

/-- Witness for C7: erasing the present key 1 of `sampleM` decrements the
size by exactly 1. -/
theorem C7_erase_witness : (sampleM.erase 1).sz + 1 = sampleM.sz :=
  ((C7_erase sampleM sampleM_reachable 1).2 (by decide)).1

/-- Witness for C8: the sentinel invariant at `sampleM`. -/
theorem C8_sentinel_invariant_witness :
    1 ≤ sampleM.capacity ∧ sampleM.hash_map_.length = sampleM.capacity + 1 ∧
      sampleM.hash_map_.getLast? = some [sampleM.end_] :=
  C8_sentinel_invariant sampleM sampleM_reachable

/-- Witness for C10: `sampleM` has `sz_ = 1 < 2 = capacity_`. -/
theorem C10_load_factor_witness : sampleM.sz < sampleM.capacity :=
  C10_load_factor sampleM sampleM_reachable

end Witnesses

end HashTable
